import Mathlib

/-! # Topic parsing and validation of `paho.mqtt.golang` (`topic.go`)

A shallow embedding of `src/topic.go`, followed by the stream adapters of
`src/writer.go` and `src/reader.go`.

* A Go `byte` is a `Fin 256`; a Go `string` is the list of its bytes, so `len(s)` is
  `List.length`.
* A Go `error` result is an `Option Err`, `none` standing for `nil`.
* A Go slice is a list; the `nil` slice is the empty list.
* `strings.Split(s, "/")` and `strings.Join(elems, "/")` belong to the Go standard library;
  they are embedded for the one-byte separator `"/"` which is the only one `topic.go` uses.
* The stream adapters run against an external pub/sub client. The program state they act
  on is the `World`: the sequence of calls made on the client so far and the number of
  pipes created so far. The client is a parameter: the error that the token of a call
  reports, given the calls made up to and including that call.
-/

namespace Mqtt

/-- A Go `byte`. -/
abbrev Byte := Fin 256

/-- A Go `string`: its sequence of bytes. -/
abbrev GoString := List Byte

/-- The byte `'/'` (0x2F). -/
def slash : Byte := 47

/-- The byte `'#'` (0x23). -/
def hash : Byte := 35

/-- The Go string `"#"`. -/
def hashLevel : GoString := [hash]

/-- The Go string literal with the given ASCII text (every character of the literals used
below is ASCII, so the UTF-8 encoding of a character is the single byte of its code). -/
def lit (s : String) : GoString := s.data.map fun c => Fin.ofNat c.toNat

/-- The three package-level error values of `topic.go`. -/
inductive Err where
  | ErrInvalidQos
  | ErrInvalidTopicEmptyString
  | ErrInvalidTopicMultilevel
  deriving DecidableEq, Repr

open Err

/-- `type Topic []string`. -/
abbrev Topic := List GoString

/-- `strings.Split(s, "/")`: the substrings of `s` between the occurrences of `'/'`;
a string without `'/'` (the empty string too) gives the one-element slice `[s]`. -/
def Split : GoString → List GoString
  | [] => [[]]
  | c :: cs =>
    if c = slash then [] :: Split cs
    else
      match Split cs with
      | [] => [[c]]
      | level :: levels => (c :: level) :: levels

/-- `strings.Join(elems, "/")`: `""` for no element, the element itself for one, and
otherwise the elements with a `'/'` between each two neighbours. -/
def Join : List GoString → GoString
  | [] => []
  | [e] => e
  | e :: e2 :: es => e ++ slash :: Join (e2 :: es)

/-- The `for i, level := range levels` loop of `validateTopic`, from index `i` on;
`n` is `len(levels)` of the whole slice. -/
def validateLevels (n : Int) : Int → List GoString → Option Err
  | _, [] => none
  | i, level :: rest =>
    if level = hashLevel ∧ i ≠ n - 1 then some ErrInvalidTopicMultilevel
    else validateLevels n (i + 1) rest

/-- `func validateTopic(topic string) (err error)`. -/
def validateTopic (topic : GoString) : Option Err :=
  if topic.length = 0 then some ErrInvalidTopicEmptyString
  else
    let levels := Split topic
    validateLevels levels.length 0 levels

/-- `func ParseTopic(rawtopic string) (t Topic, err error)`: on a validation error the
named results are returned as they stand, `t` being `nil`. -/
def ParseTopic (rawtopic : GoString) : Topic × Option Err :=
  match validateTopic rawtopic with
  | some err => ([], some err)
  | none => (Split rawtopic, none)

/-- `func NewTopic(levels ...string) (t Topic)`. -/
def NewTopic (levels : List GoString) : Topic := levels

/-- `func (t Topic) String() string`. -/
def Topic.String (t : Topic) : GoString := Join t

/-- `func (t Topic) IsValid() bool`. -/
def Topic.IsValid (t : Topic) : Bool :=
  match validateTopic t.String with
  | none => true
  | some _ => false

/-- `func (t Topic) WildcardAt(index int) Topic`. The assignment `t[index] = "#"` writes
into the array shared with the caller and panics (`none`) when `index` is out of range;
the result is the pair of the caller's sequence after the call and the returned slice
`t[:index]`. -/
def Topic.WildcardAt (t : Topic) (index : Int) : Option (Topic × Topic) :=
  if 0 ≤ index ∧ index < t.length then
    let t1 := t.set index.toNat hashLevel
    some (t1, t1.take index.toNat)
  else none

/-- `func validateQos(qos byte) (err error)`. -/
def validateQos (qos : Byte) : Option Err :=
  if qos < 0 ∨ qos > 2 then some ErrInvalidQos else none

/-- `func validateTopicAndQos(topic string, qos byte) (err error)`. -/
def validateTopicAndQos (topic : GoString) (qos : Byte) : Option Err :=
  match validateTopic topic with
  | some err => some err
  | none => validateQos qos

/-- The `for topic, qos := range subs` loop of `validateSubscribeMap` over the entries still
to come, in the order the runtime yields them, with the slices built so far. -/
def subscribeLoop :
    List (GoString × Byte) → List GoString → List Byte → List GoString × List Byte × Option Err
  | [], topics, qoss => (topics, qoss, none)
  | (topic, qos) :: rest, topics, qoss =>
    match validateTopicAndQos topic qos with
    | some err => ([], [], some err)
    | none => subscribeLoop rest (topics ++ [topic]) (qoss ++ [qos])

/-- `func validateSubscribeMap(subs map[string]byte) ([]string, []byte, error)`. The
argument is the sequence of the map's entries in the order in which `range` iterates them
(Go leaves that order unspecified). -/
def validateSubscribeMap (subs : List (GoString × Byte)) :
    List GoString × List Byte × Option Err :=
  subscribeLoop subs [] []

/-- A Go `map[string]byte` given by its entries: no key occurs twice. -/
def IsMap (m : List (GoString × Byte)) : Prop := (m.map Prod.fst).Nodup

instance (m : List (GoString × Byte)) : Decidable (IsMap m) := by
  unfold IsMap; infer_instance

/-- No level other than the last is `"#"`. -/
def HashOnlyLast (levels : List GoString) : Prop :=
  ∀ i : Nat, i + 1 < levels.length → levels[i]? ≠ some hashLevel

/-! ## The stream adapters (`writer.go`, `reader.go`) -/

/-- The read end `*io.PipeReader` of a pipe made by `io.Pipe()`; `id` numbers the pipes in
the order of their creation. -/
structure PipeReader where
  id : Nat
  deriving DecidableEq, Repr

/-- The write end `*io.PipeWriter` of a pipe made by `io.Pipe()`. -/
structure PipeWriter where
  id : Nat
  deriving DecidableEq, Repr

/-- A `MessageHandler` value. The only handlers `reader.go` builds are the closures
`payloadHandler(w)`, given here by the function that makes them and the writer `w` they
capture. -/
inductive MessageHandler where
  | payloadHandler (w : PipeWriter)
  deriving DecidableEq, Repr

/-- A call made on the external pub/sub client, with its arguments. -/
inductive Call where
  | Publish (topic : GoString) (qos : Byte) (retained : Bool) (payload : List Byte)
  | Subscribe (topic : GoString) (qos : Byte) (handler : MessageHandler)
  | Unsubscribe (topics : List GoString)
  deriving DecidableEq, Repr

/-- The state the stream adapters act on: the calls made on the client so far, oldest
first, and the number of pipes created so far. -/
structure World where
  calls : List Call
  pipes : Nat
  deriving DecidableEq, Repr

/-- Modelled from the spec: the external pub/sub client (the interfaces `Publisher` and
`Subscriber`, declared outside `src/`), which exposes `Publish`, `Subscribe` and
`Unsubscribe`, each returning a token. The client is given by the error its token reports
once the operation has completed, as a function of the calls made up to and including the
token's own call; `none` is `nil`. The type `ε` is that of the client's errors. -/
abbrev Client (ε : Type) := List Call → Option ε

/-- Modelled from the spec: a token, the handle of an operation in flight (the interface
`Token`, declared outside `src/`), which exposes `Wait()` and `Error()`. It is given by
the calls made up to and including the call that returned it. -/
structure Token where
  calls : List Call
  deriving DecidableEq, Repr

/-- Modelled from the spec: `token.Wait()` blocks until the operation completes; it makes
no call on the client and creates no pipe. -/
def Token.Wait (_token : Token) (w : World) : World := w

/-- Modelled from the spec: `token.Error()` is nil or the failure reason. -/
def Token.Error {ε : Type} (token : Token) (client : Client ε) : Option ε :=
  client token.calls

/-- The effect of a call on the client: it is added to the calls made, and its token is
returned. -/
def Client.call (c : Call) (w : World) : Token × World :=
  (⟨w.calls ++ [c]⟩, { w with calls := w.calls ++ [c] })

/-- `io.Pipe()` of the Go standard library: the two ends of a fresh pipe. -/
def ioPipe (w : World) : (PipeReader × PipeWriter) × World :=
  ((⟨w.pipes⟩, ⟨w.pipes⟩), { w with pipes := w.pipes + 1 })

/-- `type PublishFunc func(interface{}) error`. -/
abbrev PublishFunc (ε : Type) := List Byte → World → World × Option ε

/-- `type Writer struct { publish PublishFunc }`. -/
structure Writer (ε : Type) where
  publish : PublishFunc ε

/-- `func NewWriter(pub Publisher, qos byte, retained bool, topic string) (w *Writer)`. -/
def NewWriter {ε : Type} (pub : Client ε) (qos : Byte) (retained : Bool) (topic : GoString) :
    Writer ε :=
  { publish := fun data w =>
      let (token, w1) := Client.call (Call.Publish topic qos retained data) w
      let w2 := token.Wait w1
      (w2, token.Error pub) }

/-- `func (w *Writer) Write(p []byte) (n int, err error)`. -/
def Writer.Write {ε : Type} (wr : Writer ε) (p : List Byte) (w : World) :
    World × Int × Option ε :=
  match wr.publish p w with
  | (w1, some err) => (w1, 0, some err)
  | (w1, none) => (w1, p.length, none)

/-- `type UnsubscribeFunc func() error`. -/
abbrev UnsubscribeFunc (ε : Type) := World → World × Option ε

/-- `type Reader struct { unsubscribe UnsubscribeFunc; reader *io.PipeReader }`. -/
structure Reader (ε : Type) where
  unsubscribe : UnsubscribeFunc ε
  reader : PipeReader

/-- `func unsubscribeFunc(sub Subscriber, topics ...string) UnsubscribeFunc`. -/
def unsubscribeFunc {ε : Type} (sub : Client ε) (topics : List GoString) : UnsubscribeFunc ε :=
  fun w =>
    let (token, w1) := Client.call (Call.Unsubscribe topics) w
    let w2 := token.Wait w1
    (w2, token.Error sub)

/-- `func payloadHandler(w io.Writer) MessageHandler`. -/
def payloadHandler (w : PipeWriter) : MessageHandler := MessageHandler.payloadHandler w

/-- The `for _, topic := range topics` loop of `subscribe` over the topics still to come,
with the slice `subscribed` built so far. -/
def subscribeTopics {ε : Type} (sub : Client ε) (qos : Byte) (handler : MessageHandler) :
    List GoString → List GoString → World → World × Option ε
  | [], _, w => (w, none)
  | topic :: rest, subscribed, w =>
    let (token, w1) := Client.call (Call.Subscribe topic qos handler) w
    let w2 := token.Wait w1
    match token.Error sub with
    | some err => (w2, some err)
    | none => subscribeTopics sub qos handler rest (subscribed ++ [topic]) w2

/-- `func subscribe(sub Subscriber, qos byte, handler MessageHandler, topics ...string)
(err error)`. -/
def subscribe {ε : Type} (sub : Client ε) (qos : Byte) (handler : MessageHandler)
    (topics : List GoString) (w : World) : World × Option ε :=
  subscribeTopics sub qos handler topics [] w

/-- `func NewReader(sub Subscriber, qos byte, topics ...string) (r *Reader, err error)`;
a nil `*Reader` is `none`. -/
def NewReader {ε : Type} (sub : Client ε) (qos : Byte) (topics : List GoString) (w : World) :
    World × Option (Reader ε) × Option ε :=
  let ((reader, writer), w1) := ioPipe w
  let r : Reader ε := { reader := reader, unsubscribe := unsubscribeFunc sub topics }
  match subscribe sub qos (payloadHandler writer) topics w1 with
  | (w2, some err) =>
    let (w3, _) := r.unsubscribe w2
    (w3, none, some err)
  | (w2, none) => (w2, some r, none)

/-- `func (r *Reader) Close() (err error)`, run for at most `fuel` nested activations.
The body registers `defer r.Close()`, evaluates `r.unsubscribe()` into the result `err`,
and then runs the deferred call, whose own result is dropped, before it returns `err`.
The second component is `none` as long as the outermost activation has not returned. -/
def Reader.Close {ε : Type} : Nat → Reader ε → World → World × Option (Option ε)
  | 0, _, w => (w, none)
  | fuel + 1, r, w =>
    let (w1, err) := r.unsubscribe w
    match Reader.Close fuel r w1 with
    | (w2, none) => (w2, none)
    | (w2, some _) => (w2, some err)

/-- The `Subscribe` calls for the given topics, in order, with one QoS and one handler. -/
def subscribeCalls (qos : Byte) (handler : MessageHandler) (topics : List GoString) :
    List Call :=
  topics.map fun topic => Call.Subscribe topic qos handler

/-! ## Auxiliary facts about `Split` and `Join` -/

theorem Split_ne_nil (s : GoString) : Split s ≠ [] := by
  cases s with
  | nil => simp [Split]
  | cons c cs =>
    unfold Split
    split
    · simp
    · split <;> simp

theorem Join_cons_cons (e e2 : GoString) (es : List GoString) :
    Join (e :: e2 :: es) = e ++ slash :: Join (e2 :: es) := rfl

theorem Join_push_head (c : Byte) (l : GoString) (ls : List GoString) :
    Join ((c :: l) :: ls) = c :: Join (l :: ls) := by
  cases ls with
  | nil => rfl
  | cons l2 ls2 => simp [Join]

theorem Join_Split (s : GoString) : Join (Split s) = s := by
  induction s with
  | nil => rfl
  | cons c cs ih =>
    unfold Split
    split
    · next hc =>
      cases hs : Split cs with
      | nil => exact absurd hs (Split_ne_nil cs)
      | cons l ls =>
        rw [hs] at ih
        rw [Join_cons_cons, ih, hc]
        rfl
    · split
      · next hs => exact absurd hs (Split_ne_nil cs)
      · next l ls hs =>
        rw [hs] at ih
        rw [Join_push_head, ih]

/-- `Split` agrees with the library function `List.splitOn` at the separator `'/'`. -/
theorem Split_eq_splitOn (s : GoString) : Split s = s.splitOn slash := by
  induction s with
  | nil => rfl
  | cons c cs ih =>
    unfold Split
    rw [List.splitOn, List.splitOnP_cons, ← List.splitOn, ← ih]
    by_cases hc : c = slash
    · simp [hc]
    · simp only [hc, if_false, beq_iff_eq]
      cases hs : Split cs with
      | nil => exact absurd hs (Split_ne_nil cs)
      | cons l ls => simp [List.modifyHead]

/-! ## Auxiliary facts about `validateTopic` -/

theorem validateLevels_eq_none_iff (n : Int) (levels : List GoString) (i : Int) :
    validateLevels n i levels = none ↔
      ∀ j : Nat, levels[j]? = some hashLevel → i + j = n - 1 := by
  induction levels generalizing i with
  | nil => simp [validateLevels]
  | cons level rest ih =>
    unfold validateLevels
    split
    · next h =>
      simp only [reduceCtorEq, false_iff, not_forall]
      exact ⟨0, by simp [h.1], by simpa using h.2⟩
    · next h =>
      rw [ih]
      constructor
      · intro H j hj
        cases j with
        | zero =>
          simp only [List.getElem?_cons_zero, Option.some.injEq] at hj
          simp only [not_and, not_not] at h
          simpa using h hj
        | succ k =>
          have := H k (by simpa using hj)
          push_cast
          omega
      · intro H j hj
        have := H (j + 1) (by simpa using hj)
        push_cast at this
        omega

theorem validateLevels_cases (n : Int) (levels : List GoString) (i : Int) :
    validateLevels n i levels = none ∨
      validateLevels n i levels = some ErrInvalidTopicMultilevel := by
  induction levels generalizing i with
  | nil => simp [validateLevels]
  | cons level rest ih =>
    unfold validateLevels
    split
    · exact Or.inr rfl
    · exact ih _

theorem validateLevels_top_iff (levels : List GoString) :
    validateLevels levels.length 0 levels = none ↔ HashOnlyLast levels := by
  rw [validateLevels_eq_none_iff]
  unfold HashOnlyLast
  constructor
  · intro H i hi hget
    have := H i hget
    omega
  · intro H j hj
    have hlt : j < levels.length := by
      by_contra hge
      rw [List.getElem?_eq_none (by omega)] at hj
      exact absurd hj (by simp)
    have : ¬ (j + 1 < levels.length) := fun h => H j h hj
    omega

theorem validateTopic_eq_none_iff (topic : GoString) :
    validateTopic topic = none ↔ topic ≠ [] ∧ HashOnlyLast (Split topic) := by
  unfold validateTopic
  cases topic with
  | nil => simp
  | cons c cs =>
    simp only [List.length_cons, Nat.add_one_ne_zero, if_false, ne_eq, reduceCtorEq,
      not_false_eq_true, true_and]
    exact validateLevels_top_iff _

theorem validateTopic_multilevel_iff (topic : GoString) :
    validateTopic topic = some ErrInvalidTopicMultilevel ↔
      topic ≠ [] ∧ ¬ HashOnlyLast (Split topic) := by
  unfold validateTopic
  cases topic with
  | nil => simp
  | cons c cs =>
    simp only [List.length_cons, Nat.add_one_ne_zero, if_false, ne_eq, reduceCtorEq,
      not_false_eq_true, true_and]
    rw [← validateLevels_top_iff]
    rcases validateLevels_cases (Split (c :: cs)).length (Split (c :: cs)) 0 with h | h
    · simp [h]
    · simp [h]

theorem validateTopic_empty_iff (topic : GoString) :
    validateTopic topic = some ErrInvalidTopicEmptyString ↔ topic.length = 0 := by
  unfold validateTopic
  by_cases h : topic.length = 0
  · simp [h]
  · simp only [h, if_false, iff_false]
    rcases validateLevels_cases (Split topic).length (Split topic) 0 with h2 | h2
    · simp [h2]
    · simp [h2]

theorem ParseTopic_snd (raw : GoString) : (ParseTopic raw).2 = validateTopic raw := by
  unfold ParseTopic
  cases validateTopic raw <;> rfl

theorem ParseTopic_of_valid (raw : GoString) (h : validateTopic raw = none) :
    ParseTopic raw = (Split raw, none) := by
  unfold ParseTopic
  rw [h]

theorem ParseTopic_of_invalid (raw : GoString) (err : Err) (h : validateTopic raw = some err) :
    ParseTopic raw = ([], some err) := by
  unfold ParseTopic
  rw [h]

/-! ## Auxiliary facts about `validateQos` -/

theorem byte_le_two_iff (qos : Byte) : qos.val ≤ 2 ↔ qos = 0 ∨ qos = 1 ∨ qos = 2 := by
  simp only [Fin.ext_iff, Fin.val_zero, Fin.val_one, Fin.val_two]
  omega

theorem validateQos_eq_none_iff (qos : Byte) : validateQos qos = none ↔ qos.val ≤ 2 := by
  unfold validateQos
  have h0 : ¬ (qos < 0) := Nat.not_lt_zero _
  have h2 : qos > 2 ↔ 2 < qos.val := Iff.rfl
  simp only [h0, false_or, h2]
  split <;> simp <;> omega

theorem validateQos_eq_some_iff (qos : Byte) :
    validateQos qos = some ErrInvalidQos ↔ ¬ qos.val ≤ 2 := by
  unfold validateQos
  have h0 : ¬ (qos < 0) := Nat.not_lt_zero _
  have h2 : qos > 2 ↔ 2 < qos.val := Iff.rfl
  simp only [h0, false_or, h2]
  split <;> simp <;> omega

/-! ## The claims on `ParseTopic` and `Topic.String` -/

/-- Claim C1: whenever `ParseTopic` succeeds on a raw string `s`, `Topic.String` of the
returned topic is `s` again. -/
theorem parseTopic_string_roundtrip (s : GoString) (h : (ParseTopic s).2 = none) :
    (ParseTopic s).1.String = s := by
  rw [ParseTopic_snd] at h
  rw [ParseTopic_of_valid s h]
  exact Join_Split s

theorem parseTopic_string_roundtrip_witness :
    (ParseTopic (lit ("sport/tennis/#"))).2 = none ∧
      (ParseTopic (lit ("sport/tennis/#"))).1.String = lit ("sport/tennis/#") :=
  ⟨by decide, parseTopic_string_roundtrip (lit ("sport/tennis/#")) (by decide)⟩

/-- Claim C2: `ParseTopic` succeeds exactly on the non-empty raw strings none of whose
levels but the last is `"#"`, and then returns the levels of `raw` split on `'/'`, in
order; `"a/b/#"` gives `["a","b","#"]`, `"/"` gives `["",""]`, and the levels `"a+b"` and
`"a#"` are accepted. -/
theorem parseTopic_succeeds_iff (raw : GoString) :
    ((ParseTopic raw).2 = none ↔
      raw ≠ [] ∧ ∀ i : Nat, i + 1 < (Split raw).length → (Split raw)[i]? ≠ some hashLevel) ∧
    ((ParseTopic raw).2 = none → (ParseTopic raw).1 = Split raw) ∧
    ParseTopic (lit ("a/b/#")) = ([lit ("a"), lit ("b"), lit ("#")], none) ∧
    ParseTopic (lit ("/")) = ([lit (""), lit ("")], none) ∧
    ParseTopic (lit ("a+b")) = ([lit ("a+b")], none) ∧
    ParseTopic (lit ("a#")) = ([lit ("a#")], none) := by
  refine ⟨?_, ?_, by decide, by decide, by decide, by decide⟩
  · rw [ParseTopic_snd]
    exact validateTopic_eq_none_iff raw
  · intro h
    rw [ParseTopic_snd] at h
    rw [ParseTopic_of_valid raw h]

/-- Claim C3: `ParseTopic` fails with `ErrInvalidTopicMultilevel` exactly on the non-empty
raw strings that have a level `"#"` at a position other than the last; nothing is returned
as the topic then; `"a/#/b"` fails so and `"a/b/#"` does not. -/
theorem parseTopic_multilevel_iff (raw : GoString) :
    ((ParseTopic raw).2 = some ErrInvalidTopicMultilevel ↔
      raw ≠ [] ∧ ∃ i : Nat, i + 1 < (Split raw).length ∧ (Split raw)[i]? = some hashLevel) ∧
    ((ParseTopic raw).2 = some ErrInvalidTopicMultilevel → (ParseTopic raw).1 = []) ∧
    ParseTopic (lit ("a/#/b")) = ([], some ErrInvalidTopicMultilevel) ∧
    (ParseTopic (lit ("a/b/#"))).2 = none := by
  refine ⟨?_, ?_, by decide, by decide⟩
  · rw [ParseTopic_snd, validateTopic_multilevel_iff]
    unfold HashOnlyLast
    simp only [ne_eq, not_forall, not_not, exists_prop]
  · intro h
    rw [ParseTopic_snd] at h
    rw [ParseTopic_of_invalid raw _ h]

/-- Claim C4: `ParseTopic` fails with `ErrInvalidTopicEmptyString` exactly when the raw
string has length zero; on `""` it returns that error and no topic. -/
theorem parseTopic_empty_iff (raw : GoString) :
    ((ParseTopic raw).2 = some ErrInvalidTopicEmptyString ↔ raw.length = 0) ∧
    ParseTopic (lit ("")) = ([], some ErrInvalidTopicEmptyString) := by
  refine ⟨?_, by decide⟩
  rw [ParseTopic_snd]
  exact validateTopic_empty_iff raw

/-- Claim C5: when `ParseTopic` succeeds with the topic `t`, parsing `t.String()` succeeds
as well and returns `t`. -/
theorem string_parseTopic_roundtrip (raw : GoString) (t : Topic)
    (h : ParseTopic raw = (t, none)) : ParseTopic t.String = (t, none) := by
  have hv : validateTopic raw = none := by
    rw [← ParseTopic_snd, h]
  rw [ParseTopic_of_valid raw hv] at h
  have ht : t = Split raw := by
    simpa using (congrArg Prod.fst h).symm
  subst ht
  have hs : Topic.String (Split raw) = raw := Join_Split raw
  rw [hs]
  exact ParseTopic_of_valid raw hv

theorem string_parseTopic_roundtrip_witness :
    ParseTopic (lit ("a//b/+/#")) = ([lit ("a"), lit (""), lit ("b"), lit ("+"), lit ("#")], none) ∧
      ParseTopic (Topic.String [lit ("a"), lit (""), lit ("b"), lit ("+"), lit ("#")]) =
        ([lit ("a"), lit (""), lit ("b"), lit ("+"), lit ("#")], none) :=
  ⟨by decide, string_parseTopic_roundtrip (lit ("a//b/+/#")) _ (by decide)⟩

/-! ## The claims on `validateQos` and `validateTopicAndQos` -/

/-- Claim C6: `validateQos` returns no error exactly for the QoS values 0, 1 and 2 and
`ErrInvalidQos` for every other byte; the comparison `qos < 0` is never true, so the
result is that of the test `qos > 2` alone. -/
theorem validateQos_iff (qos : Byte) :
    (validateQos qos = none ↔ qos = 0 ∨ qos = 1 ∨ qos = 2) ∧
    (validateQos qos = some ErrInvalidQos ↔ ¬ (qos = 0 ∨ qos = 1 ∨ qos = 2)) ∧
    ¬ (qos < 0) ∧
    validateQos qos = (if qos > 2 then some ErrInvalidQos else none) := by
  refine ⟨(validateQos_eq_none_iff qos).trans (byte_le_two_iff qos),
    (validateQos_eq_some_iff qos).trans (not_congr (byte_le_two_iff qos)), ?_, ?_⟩
  · exact Nat.not_lt_zero _
  · unfold validateQos
    have h0 : ¬ (qos < 0) := Nat.not_lt_zero _
    simp only [h0, false_or]

/-- Claim C7: `validateTopicAndQos` returns the error of `validateTopic` whenever there is
one, whatever the QoS (`("", 3)` gives `ErrInvalidTopicEmptyString`); it returns
`ErrInvalidQos` when the topic is valid and the QoS is none of 0, 1, 2; and it returns no
error exactly when the topic is valid and the QoS is 0, 1 or 2. -/
theorem validateTopicAndQos_spec (topic : GoString) (qos : Byte) :
    (validateTopic topic ≠ none → validateTopicAndQos topic qos = validateTopic topic) ∧
    (validateTopic topic = none → ¬ (qos = 0 ∨ qos = 1 ∨ qos = 2) →
      validateTopicAndQos topic qos = some ErrInvalidQos) ∧
    (validateTopicAndQos topic qos = none ↔
      validateTopic topic = none ∧ (qos = 0 ∨ qos = 1 ∨ qos = 2)) ∧
    validateTopicAndQos (lit ("")) 3 = some ErrInvalidTopicEmptyString := by
  have hq : (validateQos qos = none ↔ qos = 0 ∨ qos = 1 ∨ qos = 2) ∧
      (validateQos qos = some ErrInvalidQos ↔ ¬ (qos = 0 ∨ qos = 1 ∨ qos = 2)) :=
    ⟨(validateQos_eq_none_iff qos).trans (byte_le_two_iff qos),
      (validateQos_eq_some_iff qos).trans (not_congr (byte_le_two_iff qos))⟩
  refine ⟨?_, ?_, ?_, by decide⟩
  · intro h
    unfold validateTopicAndQos
    cases hv : validateTopic topic with
    | none => exact absurd hv h
    | some err => rfl
  · intro hv hn
    unfold validateTopicAndQos
    rw [hv]
    exact hq.2.mpr hn
  · unfold validateTopicAndQos
    cases hv : validateTopic topic with
    | none => simpa using hq.1
    | some err => simp

/-! ## Auxiliary facts about the loop of `validateSubscribeMap` -/

theorem subscribeLoop_valid (es : List (GoString × Byte)) (topics : List GoString)
    (qoss : List Byte) (h : ∀ p ∈ es, validateTopicAndQos p.1 p.2 = none) :
    subscribeLoop es topics qoss =
      (topics ++ es.map Prod.fst, qoss ++ es.map Prod.snd, none) := by
  induction es generalizing topics qoss with
  | nil => simp [subscribeLoop]
  | cons p rest ih =>
    obtain ⟨topic, qos⟩ := p
    have hp : validateTopicAndQos topic qos = none := h (topic, qos) (List.mem_cons_self _ _)
    unfold subscribeLoop
    rw [hp]
    simp only
    rw [ih _ _ (fun q hq => h q (List.mem_cons_of_mem _ hq))]
    simp

theorem subscribeLoop_invalid (pre post : List (GoString × Byte)) (p : GoString × Byte)
    (err : Err) (topics : List GoString) (qoss : List Byte)
    (hpre : ∀ q ∈ pre, validateTopicAndQos q.1 q.2 = none)
    (hp : validateTopicAndQos p.1 p.2 = some err) :
    subscribeLoop (pre ++ p :: post) topics qoss = ([], [], some err) := by
  induction pre generalizing topics qoss with
  | nil =>
    obtain ⟨topic, qos⟩ := p
    simp only [List.nil_append]
    unfold subscribeLoop
    rw [hp]
  | cons q rest ih =>
    obtain ⟨topic, qos⟩ := q
    have hq : validateTopicAndQos topic qos = none := hpre (topic, qos) (List.mem_cons_self _ _)
    simp only [List.cons_append]
    unfold subscribeLoop
    rw [hq]
    exact ih _ _ (fun r hr => hpre r (List.mem_cons_of_mem _ hr))

theorem exists_first_invalid (es : List (GoString × Byte))
    (h : ∃ p ∈ es, validateTopicAndQos p.1 p.2 ≠ none) :
    ∃ pre p post err, es = pre ++ p :: post ∧
      (∀ q ∈ pre, validateTopicAndQos q.1 q.2 = none) ∧
      validateTopicAndQos p.1 p.2 = some err := by
  induction es with
  | nil =>
    obtain ⟨p, hp, _⟩ := h
    exact absurd hp (List.not_mem_nil p)
  | cons q rest ih =>
    cases hq : validateTopicAndQos q.1 q.2 with
    | some err => exact ⟨[], q, rest, err, rfl, by simp, hq⟩
    | none =>
      have hrest : ∃ p ∈ rest, validateTopicAndQos p.1 p.2 ≠ none := by
        obtain ⟨p, hp, hbad⟩ := h
        rcases List.mem_cons.mp hp with rfl | hp
        · exact absurd hq hbad
        · exact ⟨p, hp, hbad⟩
      obtain ⟨pre, p, post, err, hsplit, hpre, hp⟩ := ih hrest
      refine ⟨q :: pre, p, post, err, by rw [hsplit]; rfl, ?_, hp⟩
      intro r hr
      rcases List.mem_cons.mp hr with rfl | hr
      · exact hq
      · exact hpre r hr

theorem zip_map_fst_map_snd (es : List (GoString × Byte)) :
    (es.map Prod.fst).zip (es.map Prod.snd) = es := by
  induction es with
  | nil => rfl
  | cons p rest ih => simp [ih]

theorem count_eq_one_of_nodup (a : GoString) (l : List GoString) (d : l.Nodup) (h : a ∈ l) :
    l.count a = 1 := by
  induction l with
  | nil => exact absurd h (List.not_mem_nil a)
  | cons b t ih =>
    rw [List.nodup_cons] at d
    rw [List.count_cons]
    by_cases hab : b = a
    · subst hab
      simp [List.count_eq_zero.mpr d.1]
    · have hmem : a ∈ t := by
        rcases List.mem_cons.mp h with rfl | h
        · exact absurd rfl hab
        · exact h
      simp [ih d.2 hmem, hab]

/-! ## The claims on `validateSubscribeMap` -/

/-- Claim C8: for a subscription map `m` all of whose pairs are valid, whatever the order
in which its entries are iterated, `validateSubscribeMap` returns no error, and the
returned `topics` and `qoss` are as long as the map, every key of the map occurs exactly
once in `topics`, `qoss[i]` is the value of the map at `topics[i]`, and the pairs
`(topics[i], qoss[i])` are the entries of the map. -/
theorem validateSubscribeMap_valid (m order : List (GoString × Byte)) (hm : IsMap m)
    (hperm : order.Perm m) (hvalid : ∀ p ∈ m, validateTopicAndQos p.1 p.2 = none) :
    ∃ topics qoss, validateSubscribeMap order = (topics, qoss, none) ∧
      topics.length = m.length ∧ qoss.length = m.length ∧
      (∀ p ∈ m, topics.count p.1 = 1) ∧
      (∀ (i : Nat) (h1 : i < topics.length) (h2 : i < qoss.length),
        (topics[i], qoss[i]) ∈ m) ∧
      (topics.zip qoss).Perm m := by
  have hord : ∀ p ∈ order, validateTopicAndQos p.1 p.2 = none :=
    fun p hp => hvalid p (hperm.mem_iff.mp hp)
  refine ⟨order.map Prod.fst, order.map Prod.snd, ?_, ?_, ?_, ?_, ?_, ?_⟩
  · unfold validateSubscribeMap
    rw [subscribeLoop_valid order [] [] hord]
    simp
  · rw [List.length_map, hperm.length_eq]
  · rw [List.length_map, hperm.length_eq]
  · intro p hp
    have hnd : (order.map Prod.fst).Nodup := ((hperm.map Prod.fst).nodup_iff).mpr hm
    have hmem : p.1 ∈ order.map Prod.fst :=
      List.mem_map_of_mem Prod.fst (hperm.mem_iff.mpr hp)
    exact count_eq_one_of_nodup _ _ hnd hmem
  · intro i h1 h2
    have hi : i < order.length := by simpa using h1
    have : ((order.map Prod.fst)[i], (order.map Prod.snd)[i]) = order[i] := by
      simp
    rw [this]
    exact hperm.mem_iff.mp (List.getElem_mem hi)
  · rw [zip_map_fst_map_snd]
    exact hperm

theorem validateSubscribeMap_valid_witness :
    IsMap [(lit ("a/b"), 0), (lit ("c/#"), 1)] ∧
    ∃ topics qoss,
      validateSubscribeMap [(lit ("c/#"), 1), (lit ("a/b"), 0)] = (topics, qoss, none) ∧
      topics.length = [(lit ("a/b"), (0 : Byte)), (lit ("c/#"), 1)].length ∧
      qoss.length = [(lit ("a/b"), (0 : Byte)), (lit ("c/#"), 1)].length ∧
      (∀ p ∈ [(lit ("a/b"), (0 : Byte)), (lit ("c/#"), 1)], topics.count p.1 = 1) ∧
      (∀ (i : Nat) (h1 : i < topics.length) (h2 : i < qoss.length),
        (topics[i], qoss[i]) ∈ [(lit ("a/b"), (0 : Byte)), (lit ("c/#"), 1)]) ∧
      (topics.zip qoss).Perm [(lit ("a/b"), 0), (lit ("c/#"), 1)] :=
  ⟨by decide,
    validateSubscribeMap_valid [(lit ("a/b"), 0), (lit ("c/#"), 1)]
      [(lit ("c/#"), 1), (lit ("a/b"), 0)] (by decide) (List.Perm.swap _ _ _) (by decide)⟩

/-- Claim C9: for a subscription map `m` and any order in which its entries are iterated,
if some pair of the map is invalid then `validateSubscribeMap` returns nil `topics`, nil
`qoss` and the `validateTopicAndQos` error of the first invalid pair of that order; so it
returns no error only when every pair of the map is valid; on `{"a/#/b": 0}` the error is
`ErrInvalidTopicMultilevel`. -/
theorem validateSubscribeMap_invalid (m order : List (GoString × Byte)) (hm : IsMap m)
    (hperm : order.Perm m) :
    ((∃ p ∈ m, validateTopicAndQos p.1 p.2 ≠ none) →
      ∃ pre p post err, order = pre ++ p :: post ∧
        (∀ q ∈ pre, validateTopicAndQos q.1 q.2 = none) ∧
        validateTopicAndQos p.1 p.2 = some err ∧
        validateSubscribeMap order = ([], [], some err)) ∧
    ((validateSubscribeMap order).2.2 = none →
      ∀ p ∈ m, validateTopicAndQos p.1 p.2 = none) ∧
    validateSubscribeMap [(lit ("a/#/b"), 0)] = ([], [], some ErrInvalidTopicMultilevel) := by
  have _ := hm
  have main : (∃ p ∈ m, validateTopicAndQos p.1 p.2 ≠ none) →
      ∃ pre p post err, order = pre ++ p :: post ∧
        (∀ q ∈ pre, validateTopicAndQos q.1 q.2 = none) ∧
        validateTopicAndQos p.1 p.2 = some err ∧
        validateSubscribeMap order = ([], [], some err) := by
    rintro ⟨p, hp, hbad⟩
    obtain ⟨pre, q, post, err, hsplit, hpre, hq⟩ :=
      exists_first_invalid order ⟨p, hperm.mem_iff.mpr hp, hbad⟩
    refine ⟨pre, q, post, err, hsplit, hpre, hq, ?_⟩
    unfold validateSubscribeMap
    rw [hsplit]
    exact subscribeLoop_invalid pre post q err [] [] hpre hq
  refine ⟨main, ?_, by decide⟩
  intro hok p hp
  by_contra hbad
  obtain ⟨_, _, _, err, _, _, _, hres⟩ := main ⟨p, hp, hbad⟩
  rw [hres] at hok
  exact absurd hok (by simp)

theorem validateSubscribeMap_invalid_witness :
    IsMap [(lit ("a/#/b"), 0), (lit ("x"), 3)] ∧
    validateSubscribeMap [(lit ("x"), 3), (lit ("a/#/b"), 0)] = ([], [], some ErrInvalidQos) ∧
    validateSubscribeMap [(lit ("a/#/b"), 0), (lit ("x"), 3)] =
      ([], [], some ErrInvalidTopicMultilevel) ∧
    ((validateSubscribeMap [(lit ("x"), 3), (lit ("a/#/b"), 0)]).2.2 = none →
      ∀ p ∈ [(lit ("a/#/b"), (0 : Byte)), (lit ("x"), 3)],
        validateTopicAndQos p.1 p.2 = none) :=
  ⟨by decide, by decide, by decide,
    (validateSubscribeMap_invalid [(lit ("a/#/b"), 0), (lit ("x"), 3)]
      [(lit ("x"), 3), (lit ("a/#/b"), 0)] (by decide) (List.Perm.swap _ _ _)).2.1⟩

/-! ## The claim on `Topic.WildcardAt` -/

/-- Claim C10, evaluated on the code: `WildcardAt(["a","b","c"], 1)` writes `"#"` at index 1
of the caller's sequence and returns the slice `t[:1]`, which is `["a"]`, of length 1; the
level `"#"` written at index 1 is not part of the returned topic, so the result is not
`["a","#"]`. -/
theorem wildcardAt_returns_before_index :
    Topic.WildcardAt [lit ("a"), lit ("b"), lit ("c")] 1 =
      some ([lit ("a"), lit ("#"), lit ("c")], [lit ("a")]) ∧
    ¬ ∃ t1, Topic.WildcardAt [lit ("a"), lit ("b"), lit ("c")] 1 =
      some (t1, [lit ("a"), lit ("#")]) := by
  have h : Topic.WildcardAt [lit ("a"), lit ("b"), lit ("c")] 1 =
      some ([lit ("a"), lit ("#"), lit ("c")], [lit ("a")]) := by decide
  refine ⟨h, ?_⟩
  rintro ⟨t1, ht⟩
  rw [h] at ht
  revert ht
  simp only [Option.some.injEq, Prod.mk.injEq, imp_false, not_and]
  intro _
  decide

/-! ## Further facts about `Split`, `Join` and `Topic.IsValid` -/

theorem Split_cons (c : Byte) (cs : GoString) :
    Split (c :: cs) =
      if c = slash then [] :: Split cs
      else
        match Split cs with
        | [] => [[c]]
        | level :: levels => (c :: level) :: levels := rfl

theorem Split_length (s : GoString) : (Split s).length = s.count slash + 1 := by
  induction s with
  | nil => rfl
  | cons c cs ih =>
    rw [Split_cons, List.count_cons]
    split
    · next hc => simp [ih, hc]
    · next hc =>
      have hne : (c == slash) = false := by simpa using hc
      rw [hne]
      split
      · next hs => exact absurd hs (Split_ne_nil cs)
      · next l ls hs =>
        rw [hs] at ih
        simp only [List.length_cons] at ih ⊢
        simp only [Bool.false_eq_true, if_false]
        omega

theorem Split_no_slash (s : GoString) : ∀ l ∈ Split s, slash ∉ l := by
  induction s with
  | nil =>
    intro l hl
    simp only [Split, List.mem_singleton] at hl
    simp [hl]
  | cons c cs ih =>
    unfold Split
    split
    · intro l hl
      rcases List.mem_cons.mp hl with rfl | hl
      · simp
      · exact ih l hl
    · next hc =>
      split
      · next hs => exact absurd hs (Split_ne_nil cs)
      · next l0 ls hs =>
        rw [hs] at ih
        intro l hl
        rcases List.mem_cons.mp hl with rfl | hl
        · intro hmem
          rcases List.mem_cons.mp hmem with h | h
          · exact hc h.symm
          · exact ih l0 (List.mem_cons_self _ _) h
        · exact ih l (List.mem_cons_of_mem _ hl)

theorem Split_of_no_slash (e : GoString) (h : slash ∉ e) : Split e = [e] := by
  induction e with
  | nil => rfl
  | cons c cs ih =>
    have hc : ¬ c = slash := fun hc => h (by simp [hc])
    have hcs : slash ∉ cs := fun hmem => h (List.mem_cons_of_mem _ hmem)
    unfold Split
    rw [ih hcs]
    simp [hc]

theorem Split_append_slash (a b : GoString) :
    Split (a ++ slash :: b) = Split a ++ Split b := by
  induction a with
  | nil => simp [Split]
  | cons c cs ih =>
    rw [List.cons_append, Split_cons, Split_cons, ih]
    split
    · simp
    · cases hs : Split cs with
      | nil => exact absurd hs (Split_ne_nil cs)
      | cons l ls => simp

theorem Split_Join (t : List GoString) (h : t ≠ []) :
    Split (Join t) = t.flatMap Split := by
  induction t with
  | nil => exact absurd rfl h
  | cons e es ih =>
    cases es with
    | nil => simp [Join]
    | cons e2 es2 =>
      rw [Join_cons_cons, Split_append_slash, ih (by simp)]
      simp [List.flatMap_cons]

theorem flatMap_Split_of_no_slash (t : List GoString) (h : ∀ l ∈ t, slash ∉ l) :
    t.flatMap Split = t := by
  induction t with
  | nil => rfl
  | cons e es ih =>
    rw [List.flatMap_cons, Split_of_no_slash e (h e (List.mem_cons_self _ _)),
      ih (fun l hl => h l (List.mem_cons_of_mem _ hl))]
    rfl

theorem flatMap_Split_ne_nil (t : List GoString) (h : t ≠ []) : t.flatMap Split ≠ [] := by
  cases t with
  | nil => exact absurd rfl h
  | cons e es =>
    rw [List.flatMap_cons]
    intro hnil
    exact Split_ne_nil e (List.append_eq_nil.mp hnil).1

theorem IsValid_iff (t : Topic) : t.IsValid = true ↔ validateTopic t.String = none := by
  unfold Topic.IsValid
  cases validateTopic t.String <;> simp

theorem Join_eq_nil_iff (t : List GoString) : Join t = [] ↔ t = [] ∨ t = [[]] := by
  cases t with
  | nil => simp [Join]
  | cons e es =>
    cases es with
    | nil => simp [Join]
    | cons e2 es2 => simp [Join]

theorem not_hashOnlyLast_of_hash (a b : List GoString) (hb : b ≠ []) :
    ¬ HashOnlyLast (a ++ hashLevel :: b) := by
  intro H
  have hlen : 0 < b.length := List.length_pos.mpr hb
  refine H a.length ?_ ?_
  · simp only [List.length_append, List.length_cons]
    omega
  · rw [List.getElem?_append_right (le_refl _)]
    simp

theorem IsValid_set_hash (t : Topic) (i : Nat) (h : i + 1 < t.length) :
    Topic.IsValid (t.set i hashLevel) = false := by
  have hset : t.set i hashLevel = t.take i ++ hashLevel :: t.drop (i + 1) := by
    rw [List.set_eq_take_append_cons_drop, if_pos (by omega)]
  have hdrop : t.drop (i + 1) ≠ [] := by
    intro hnil
    have := congrArg List.length hnil
    simp only [List.length_drop, List.length_nil] at this
    omega
  have hne : t.take i ++ hashLevel :: t.drop (i + 1) ≠ [] := by simp
  have hsplit : Split (Join (t.take i ++ hashLevel :: t.drop (i + 1))) =
      (t.take i).flatMap Split ++ hashLevel :: (t.drop (i + 1)).flatMap Split := by
    rw [Split_Join _ hne, List.flatMap_append, List.flatMap_cons]
    have : Split hashLevel = [hashLevel] := by decide
    rw [this]
    rfl
  have hinv : validateTopic (Topic.String (t.set i hashLevel)) ≠ none := by
    intro hv
    rw [validateTopic_eq_none_iff] at hv
    unfold Topic.String at hv
    rw [hset, hsplit] at hv
    exact not_hashOnlyLast_of_hash _ _ (flatMap_Split_ne_nil _ hdrop) hv.2
  cases hb : Topic.IsValid (t.set i hashLevel) with
  | false => rfl
  | true => exact absurd ((IsValid_iff _).mp hb) hinv

theorem validateTopic_of_no_slash (topic : GoString) (hne : topic ≠ [])
    (h : slash ∉ topic) : validateTopic topic = none := by
  rw [validateTopic_eq_none_iff, Split_of_no_slash topic h]
  refine ⟨hne, ?_⟩
  intro i hi
  simp only [List.length_singleton] at hi
  omega

/-! ## The claims on the shape of parsed topics and on `Topic.IsValid` -/

/-- Claim C11: a topic returned by a successful `ParseTopic` has at least one level, every
level of it equal to `"#"` is its last level, and `IsValid` is true for it; so it is for
the parse of `"sport/tennis/player1/#"`. -/
theorem parseTopic_invariant (raw : GoString) (t : Topic) (h : ParseTopic raw = (t, none)) :
    1 ≤ t.length ∧ (∀ i : Nat, t[i]? = some hashLevel → i + 1 = t.length) ∧
      t.IsValid = true := by
  have hv : validateTopic raw = none := by
    rw [← ParseTopic_snd, h]
  rw [ParseTopic_of_valid raw hv] at h
  have ht : t = Split raw := by
    simpa using (congrArg Prod.fst h).symm
  subst ht
  have hlast : HashOnlyLast (Split raw) := ((validateTopic_eq_none_iff raw).mp hv).2
  refine ⟨?_, ?_, ?_⟩
  · exact List.length_pos.mpr (Split_ne_nil raw)
  · intro i hi
    have hlt : i < (Split raw).length := by
      by_contra hge
      rw [List.getElem?_eq_none (by omega)] at hi
      exact absurd hi (by simp)
    have hnot : ¬ (i + 1 < (Split raw).length) := fun hlt2 => hlast i hlt2 hi
    omega
  · rw [IsValid_iff]
    have hs : Topic.String (Split raw) = raw := Join_Split raw
    rw [hs]
    exact hv

theorem parseTopic_invariant_witness :
    ParseTopic (lit ("sport/tennis/player1/#")) =
      ([lit ("sport"), lit ("tennis"), lit ("player1"), lit ("#")], none) ∧
    1 ≤ [lit ("sport"), lit ("tennis"), lit ("player1"), lit ("#")].length ∧
    (∀ i : Nat, [lit ("sport"), lit ("tennis"), lit ("player1"), lit ("#")][i]? =
        some hashLevel →
      i + 1 = [lit ("sport"), lit ("tennis"), lit ("player1"), lit ("#")].length) ∧
    Topic.IsValid [lit ("sport"), lit ("tennis"), lit ("player1"), lit ("#")] = true :=
  ⟨by decide, parseTopic_invariant (lit ("sport/tennis/player1/#")) _ (by decide)⟩

/-- Claim C12: for every level sequence handed to `NewTopic`, `IsValid` is true exactly
when `ParseTopic` of its `String()` succeeds; both fail for the empty sequence and for the
one level `"a/#/b"`, both succeed for the levels `"a/b"`, `"#"`. -/
theorem isValid_iff_parseTopic (levels : List GoString) :
    ((NewTopic levels).IsValid = true ↔ (ParseTopic (NewTopic levels).String).2 = none) ∧
    (NewTopic []).IsValid = false ∧
    (ParseTopic (NewTopic []).String).2 = some ErrInvalidTopicEmptyString ∧
    (NewTopic [lit ("a/#/b")]).IsValid = false ∧
    (ParseTopic (NewTopic [lit ("a/#/b")]).String).2 = some ErrInvalidTopicMultilevel ∧
    (NewTopic [lit ("a/b"), lit ("#")]).IsValid = true ∧
    (ParseTopic (NewTopic [lit ("a/b"), lit ("#")]).String).2 = none := by
  refine ⟨?_, by decide, by decide, by decide, by decide, by decide, by decide⟩
  rw [ParseTopic_snd]
  exact IsValid_iff _

/-- Claim C16, evaluated on the code: the topic made of 65536 bytes `'a'` is longer than
65535 bytes, and `validateTopic` returns no error on it, so `ParseTopic` succeeds. -/
theorem validateTopic_accepts_long_topic :
    (List.replicate 65536 (97 : Byte)).length = 65536 ∧
    validateTopic (List.replicate 65536 (97 : Byte)) = none ∧
    (ParseTopic (List.replicate 65536 (97 : Byte))).2 = none := by
  have hv : validateTopic (List.replicate 65536 (97 : Byte)) = none := by
    apply validateTopic_of_no_slash
    · intro hnil
      have hlen := congrArg List.length hnil
      rw [List.length_replicate] at hlen
      exact absurd hlen (by decide)
    · intro hmem
      have := List.eq_of_mem_replicate hmem
      exact absurd this (by decide)
  refine ⟨List.length_replicate _ _, hv, ?_⟩
  rw [ParseTopic_snd]
  exact hv

/-- Claim C17: for levels handed to `NewTopic` none of which contains `'/'`, `IsValid` is
true exactly when the sequence is not empty, is not the single level `""`, and has no
level `"#"` at a position other than the last. -/
theorem isValid_newTopic_iff (levels : List GoString) (hns : ∀ l ∈ levels, slash ∉ l) :
    (NewTopic levels).IsValid = true ↔
      levels ≠ [] ∧ levels ≠ [lit ("")] ∧
        ∀ i : Nat, i + 1 < levels.length → levels[i]? ≠ some hashLevel := by
  have hlit : lit ("") = [] := rfl
  rw [hlit, IsValid_iff, validateTopic_eq_none_iff]
  unfold NewTopic Topic.String
  rw [ne_eq, Join_eq_nil_iff, not_or]
  by_cases hnil : levels = []
  · simp [hnil]
  · rw [Split_Join levels hnil, flatMap_Split_of_no_slash levels hns]
    unfold HashOnlyLast
    exact and_assoc

theorem isValid_newTopic_iff_witness :
    (∀ l ∈ [lit ("a"), lit ("+"), lit ("#")], slash ∉ l) ∧
    ((NewTopic [lit ("a"), lit ("+"), lit ("#")]).IsValid = true ↔
      [lit ("a"), lit ("+"), lit ("#")] ≠ [] ∧ [lit ("a"), lit ("+"), lit ("#")] ≠ [lit ("")] ∧
        ∀ i : Nat, i + 1 < [lit ("a"), lit ("+"), lit ("#")].length →
          [lit ("a"), lit ("+"), lit ("#")][i]? ≠ some hashLevel) :=
  ⟨by decide, isValid_newTopic_iff [lit ("a"), lit ("+"), lit ("#")] (by decide)⟩

/-- Claim C18: a topic returned by a successful `ParseTopic` has one level more than the
raw string has bytes `'/'`, and none of its levels contains `'/'`. -/
theorem parseTopic_level_count (raw : GoString) (h : (ParseTopic raw).2 = none) :
    (ParseTopic raw).1.length = 1 + raw.count slash ∧
      ∀ l ∈ (ParseTopic raw).1, slash ∉ l := by
  rw [ParseTopic_snd] at h
  rw [ParseTopic_of_valid raw h]
  refine ⟨?_, Split_no_slash raw⟩
  rw [Split_length]
  exact Nat.add_comm _ _

theorem parseTopic_level_count_witness :
    (ParseTopic (lit ("a//b/#"))).2 = none ∧
    (ParseTopic (lit ("a//b/#"))).1.length = 1 + (lit ("a//b/#")).count slash ∧
      ∀ l ∈ (ParseTopic (lit ("a//b/#"))).1, slash ∉ l :=
  ⟨by decide, parseTopic_level_count (lit ("a//b/#")) (by decide)⟩

/-- Claim C19: for an index `i` within the topic, `WildcardAt` leaves the caller's sequence
with the same length, with `"#"` at level `i` and with every other level as it was; that
sequence is not valid any more when `i` is not its last index. -/
theorem wildcardAt_frame (t : Topic) (i : Int) (h0 : 0 ≤ i) (h1 : i < t.length) :
    ∃ t1 r, t.WildcardAt i = some (t1, r) ∧ t1.length = t.length ∧
      t1[i.toNat]? = some hashLevel ∧
      (∀ j : Nat, (j : Int) ≠ i → t1[j]? = t[j]?) ∧
      (i ≠ t.length - 1 → t1.IsValid = false) := by
  have hlt : i.toNat < t.length := by omega
  refine ⟨t.set i.toNat hashLevel, (t.set i.toNat hashLevel).take i.toNat, ?_, ?_, ?_, ?_, ?_⟩
  · unfold Topic.WildcardAt
    rw [if_pos ⟨h0, h1⟩]
  · exact List.length_set _ _ _
  · exact List.getElem?_set_self hlt
  · intro j hj
    exact List.getElem?_set_ne (by omega)
  · intro hlast
    exact IsValid_set_hash t i.toNat (by omega)

theorem wildcardAt_frame_witness :
    (0 : Int) ≤ 0 ∧ (0 : Int) < [lit ("a"), lit ("b"), lit ("c")].length ∧
    ∃ t1 r, Topic.WildcardAt [lit ("a"), lit ("b"), lit ("c")] 0 = some (t1, r) ∧
      t1.length = [lit ("a"), lit ("b"), lit ("c")].length ∧
      t1[(0 : Int).toNat]? = some hashLevel ∧
      (∀ j : Nat, (j : Int) ≠ 0 → t1[j]? = [lit ("a"), lit ("b"), lit ("c")][j]?) ∧
      ((0 : Int) ≠ ([lit ("a"), lit ("b"), lit ("c")].length : Int) - 1 →
        t1.IsValid = false) :=
  ⟨by decide, by decide,
    wildcardAt_frame [lit ("a"), lit ("b"), lit ("c")] 0 (by decide) (by decide)⟩

/-! ## Auxiliary facts about the stream adapters -/

theorem subscribeTopics_ok {ε : Type} (sub : Client ε) (qos : Byte) (handler : MessageHandler)
    (topics subscribed : List GoString) (w : World)
    (hok : ∀ j : Nat, j < topics.length →
      sub (w.calls ++ subscribeCalls qos handler (topics.take (j + 1))) = none) :
    subscribeTopics sub qos handler topics subscribed w =
      ({ w with calls := w.calls ++ subscribeCalls qos handler topics }, none) := by
  induction topics generalizing subscribed w with
  | nil => simp [subscribeTopics, subscribeCalls]
  | cons topic rest ih =>
    have h0 : sub (w.calls ++ [Call.Subscribe topic qos handler]) = none := by
      simpa [subscribeCalls] using hok 0 (by simp)
    unfold subscribeTopics
    simp only [Client.call, Token.Wait, Token.Error, h0]
    rw [ih]
    · simp [subscribeCalls]
    · intro j hj
      have := hok (j + 1) (by simpa using hj)
      simpa [subscribeCalls] using this

theorem subscribeTopics_fail {ε : Type} (sub : Client ε) (qos : Byte)
    (handler : MessageHandler) (topics subscribed : List GoString) (w : World) (k : Nat)
    (err : ε) (hk : k < topics.length)
    (hok : ∀ j : Nat, j < k →
      sub (w.calls ++ subscribeCalls qos handler (topics.take (j + 1))) = none)
    (hfail : sub (w.calls ++ subscribeCalls qos handler (topics.take (k + 1))) = some err) :
    subscribeTopics sub qos handler topics subscribed w =
      ({ w with calls := w.calls ++ subscribeCalls qos handler (topics.take (k + 1)) },
        some err) := by
  induction topics generalizing subscribed w k with
  | nil => exact absurd hk (Nat.not_lt_zero k)
  | cons topic rest ih =>
    cases k with
    | zero =>
      have h0 : sub (w.calls ++ [Call.Subscribe topic qos handler]) = some err := by
        simpa [subscribeCalls] using hfail
      unfold subscribeTopics
      simp only [Client.call, Token.Wait, Token.Error, h0]
      simp [subscribeCalls]
    | succ k =>
      have h0 : sub (w.calls ++ [Call.Subscribe topic qos handler]) = none := by
        simpa [subscribeCalls] using hok 0 (by omega)
      unfold subscribeTopics
      simp only [Client.call, Token.Wait, Token.Error, h0]
      rw [ih _ _ k (by simpa using hk)]
      · simp [subscribeCalls]
      · intro j hj
        have := hok (j + 1) (by omega)
        simpa [subscribeCalls] using this
      · simpa [subscribeCalls] using hfail

theorem Close_succ {ε : Type} (fuel : Nat) (r : Reader ε) (w : World) :
    Reader.Close (fuel + 1) r w =
      match Reader.Close fuel r (r.unsubscribe w).1 with
      | (w2, none) => (w2, none)
      | (w2, some _) => (w2, some (r.unsubscribe w).2) := rfl

theorem Close_not_returned {ε : Type} (fuel : Nat) (r : Reader ε) (w : World) :
    (Reader.Close fuel r w).2 = none := by
  induction fuel generalizing w with
  | zero => rfl
  | succ n ih =>
    rw [Close_succ]
    have := ih (r.unsubscribe w).1
    revert this
    cases Reader.Close n r (r.unsubscribe w).1 with
    | mk w2 res =>
      intro hres
      simp only at hres
      subst hres
      rfl

theorem Close_calls {ε : Type} (sub : Client ε) (topics : List GoString) (rd : PipeReader)
    (fuel : Nat) (w : World) :
    (Reader.Close fuel ⟨unsubscribeFunc sub topics, rd⟩ w).1.calls =
      w.calls ++ List.replicate fuel (Call.Unsubscribe topics) := by
  induction fuel generalizing w with
  | zero => simp [Reader.Close]
  | succ n ih =>
    rw [Close_succ]
    have hstep := ih (unsubscribeFunc sub topics w).1
    have hnone := Close_not_returned n ⟨unsubscribeFunc sub topics, rd⟩
      (unsubscribeFunc sub topics w).1
    revert hstep hnone
    cases Reader.Close n ⟨unsubscribeFunc sub topics, rd⟩ (unsubscribeFunc sub topics w).1 with
    | mk w2 res =>
      intro hstep hnone
      simp only at hstep hnone
      subst hnone
      simp only [hstep, unsubscribeFunc, Client.call, Token.Wait]
      rw [List.replicate_succ, List.append_assoc]
      rfl

/-! ## The claims on `Writer.Write`, `Reader.Close` and `NewReader` -/

/-- Claim C13: for every buffer `p` and every publisher, `Write(p)` makes exactly one call
on the client, the `Publish` of the whole of `p` with the topic, QoS and retained flag
given to `NewWriter`; it returns `(len(p), nil)` when the token of that call reports no
error and `(0, err)` when it reports the error `err`. -/
theorem writer_write_spec {ε : Type} (pub : Client ε) (qos : Byte) (retained : Bool)
    (topic : GoString) (p : List Byte) (w : World) :
    ((NewWriter pub qos retained topic).Write p w).1 =
      { w with calls := w.calls ++ [Call.Publish topic qos retained p] } ∧
    (pub (w.calls ++ [Call.Publish topic qos retained p]) = none →
      ((NewWriter pub qos retained topic).Write p w).2 = ((p.length : Int), none)) ∧
    (∀ err : ε, pub (w.calls ++ [Call.Publish topic qos retained p]) = some err →
      ((NewWriter pub qos retained topic).Write p w).2 = (0, some err)) := by
  unfold Writer.Write NewWriter
  simp only [Client.call, Token.Wait, Token.Error]
  cases hp : pub (w.calls ++ [Call.Publish topic qos retained p]) with
  | none => simp
  | some err => simp

/-- Claim C14, evaluated on the code: `Close` defers a call to `Close` itself, so no
activation of it ever returns, whatever the number of nested activations allowed; for a
reader made by `NewReader` every activation calls `Unsubscribe` once more, so that `n`
activations have made `n` calls of `Unsubscribe` (two already after two activations of the
reader on the topic `"a"`). -/
theorem reader_close_never_returns {ε : Type} (sub : Client ε) (topics : List GoString)
    (rd : PipeReader) (fuel : Nat) (w : World) :
    (∀ r : Reader ε, (Reader.Close fuel r w).2 = none) ∧
    (Reader.Close fuel ⟨unsubscribeFunc sub topics, rd⟩ w).1.calls =
      w.calls ++ List.replicate fuel (Call.Unsubscribe topics) ∧
    (Reader.Close 2 ⟨unsubscribeFunc (fun _ => (none : Option ε)) [lit ("a")], ⟨0⟩⟩
        ⟨[Call.Subscribe (lit ("a")) 0 (payloadHandler ⟨0⟩)], 1⟩) =
      (⟨[Call.Subscribe (lit ("a")) 0 (payloadHandler ⟨0⟩), Call.Unsubscribe [lit ("a")],
          Call.Unsubscribe [lit ("a")]], 1⟩, none) :=
  ⟨fun r => Close_not_returned fuel r w, Close_calls sub topics rd fuel w, rfl⟩

/-- Claim C15: when the subscription of the topic at index `k` is the first whose token
reports an error, `NewReader` returns a nil reader and that error; the calls it has made
on the client are the `Subscribe` calls for the topics up to index `k`, in order, and then
one `Unsubscribe` call, whose topics are all the given topics and so include every topic
subscribed before. -/
theorem newReader_rollback {ε : Type} (sub : Client ε) (qos : Byte) (topics : List GoString)
    (w : World) (k : Nat) (err : ε) (hk : k < topics.length)
    (hok : ∀ j : Nat, j < k →
      sub (w.calls ++ subscribeCalls qos (payloadHandler ⟨w.pipes⟩) (topics.take (j + 1))) =
        none)
    (hfail :
      sub (w.calls ++ subscribeCalls qos (payloadHandler ⟨w.pipes⟩) (topics.take (k + 1))) =
        some err) :
    (NewReader sub qos topics w).2.1.isNone = true ∧
    (NewReader sub qos topics w).2.2 = some err ∧
    (NewReader sub qos topics w).1.calls =
      w.calls ++ subscribeCalls qos (payloadHandler ⟨w.pipes⟩) (topics.take (k + 1)) ++
        [Call.Unsubscribe topics] ∧
    ∀ topic ∈ topics.take k, topic ∈ topics := by
  have hsub := subscribeTopics_fail sub qos (payloadHandler ⟨w.pipes⟩) topics []
    { w with pipes := w.pipes + 1 } k err hk hok hfail
  have hrun : NewReader sub qos topics w =
      ({ calls := w.calls ++
            subscribeCalls qos (payloadHandler ⟨w.pipes⟩) (topics.take (k + 1)) ++
              [Call.Unsubscribe topics],
         pipes := w.pipes + 1 }, none, some err) := by
    unfold NewReader subscribe
    simp only [ioPipe]
    rw [hsub]
    simp [unsubscribeFunc, Client.call, Token.Wait]
  rw [hrun]
  exact ⟨rfl, rfl, rfl, fun topic h => List.mem_of_mem_take h⟩

theorem newReader_rollback_witness :
    (NewReader (fun calls => if calls.length = 2 then some 7 else (none : Option Nat)) 1
        [lit ("a"), lit ("b"), lit ("c")] ⟨[], 0⟩).2.1.isNone = true ∧
    (NewReader (fun calls => if calls.length = 2 then some 7 else (none : Option Nat)) 1
        [lit ("a"), lit ("b"), lit ("c")] ⟨[], 0⟩).2.2 = some 7 ∧
    (NewReader (fun calls => if calls.length = 2 then some 7 else (none : Option Nat)) 1
        [lit ("a"), lit ("b"), lit ("c")] ⟨[], 0⟩).1.calls =
      [] ++ subscribeCalls 1 (payloadHandler ⟨0⟩) ([lit ("a"), lit ("b"), lit ("c")].take 2) ++
        [Call.Unsubscribe [lit ("a"), lit ("b"), lit ("c")]] ∧
    ∀ topic ∈ [lit ("a"), lit ("b"), lit ("c")].take 1,
      topic ∈ [lit ("a"), lit ("b"), lit ("c")] :=
  newReader_rollback (fun calls => if calls.length = 2 then some 7 else (none : Option Nat)) 1
    [lit ("a"), lit ("b"), lit ("c")] ⟨[], 0⟩ 1 7 (by decide)
    (by intro j hj; interval_cases j; rfl) rfl

/-- Claim C20: when the token of every subscription reports no error, the calls
`NewReader` makes on the client are one `Subscribe` call for each given topic, in the
given order, with the given QoS, and no `Unsubscribe` call; it returns a reader that is
not nil and a nil error. -/
theorem newReader_success {ε : Type} (sub : Client ε) (qos : Byte) (topics : List GoString)
    (w : World)
    (hok : ∀ j : Nat, j < topics.length →
      sub (w.calls ++ subscribeCalls qos (payloadHandler ⟨w.pipes⟩) (topics.take (j + 1))) =
        none) :
    (NewReader sub qos topics w).2.1.isSome = true ∧
    (NewReader sub qos topics w).2.2 = none ∧
    (NewReader sub qos topics w).1.calls =
      w.calls ++ topics.map (fun topic => Call.Subscribe topic qos (payloadHandler ⟨w.pipes⟩)) ∧
    ∀ c ∈ (NewReader sub qos topics w).1.calls.drop w.calls.length,
      ∀ ts, c ≠ Call.Unsubscribe ts := by
  have hsub := subscribeTopics_ok sub qos (payloadHandler ⟨w.pipes⟩) topics []
    { w with pipes := w.pipes + 1 } hok
  have hrun : NewReader sub qos topics w =
      ({ calls := w.calls ++ subscribeCalls qos (payloadHandler ⟨w.pipes⟩) topics,
         pipes := w.pipes + 1 },
        some ⟨unsubscribeFunc sub topics, ⟨w.pipes⟩⟩, none) := by
    unfold NewReader subscribe
    simp only [ioPipe]
    rw [hsub]
  rw [hrun]
  refine ⟨rfl, rfl, rfl, ?_⟩
  intro c hc ts
  simp only [List.drop_left, subscribeCalls, List.mem_map] at hc
  obtain ⟨topic, _, rfl⟩ := hc
  simp

theorem newReader_success_witness :
    (NewReader (fun _ => (none : Option Nat)) 2 [lit ("a/b"), lit ("c/#")] ⟨[], 0⟩).2.1.isSome =
      true ∧
    (NewReader (fun _ => (none : Option Nat)) 2 [lit ("a/b"), lit ("c/#")] ⟨[], 0⟩).2.2 = none ∧
    (NewReader (fun _ => (none : Option Nat)) 2 [lit ("a/b"), lit ("c/#")] ⟨[], 0⟩).1.calls =
      [] ++ [lit ("a/b"), lit ("c/#")].map
        (fun topic => Call.Subscribe topic 2 (payloadHandler ⟨0⟩)) ∧
    ∀ c ∈ (NewReader (fun _ => (none : Option Nat)) 2 [lit ("a/b"), lit ("c/#")]
        ⟨[], 0⟩).1.calls.drop ([] : List Call).length,
      ∀ ts, c ≠ Call.Unsubscribe ts :=
  newReader_success (fun _ => (none : Option Nat)) 2 [lit ("a/b"), lit ("c/#")] ⟨[], 0⟩
    (fun _ _ => rfl)

end Mqtt
